import Mathlib

/-!
Verification of `tmdb_dataset_builder.py` (class `TMDBDatasetBuilder`).

Shallow embedding conventions:
- Python `str` values that undergo character-level processing (titles, slugs)
  are `List Char`; payload strings with no character-level processing
  (filenames, file paths, overviews) stay `String`.
- Python dict lookups `d.get(k, default)` become `Option` + `getD`).
- The filesystem is a pair of boolean oracles (directory / file existence);
  network fetches are oracles passed as function arguments.
- Numeric ratings (`vote_average`, a Python float used only for ordering)
  are modelled as rationals; pixel widths and ids as integers / naturals.
-/

namespace TMDBDatasetBuilder

/-! ### Slug generation (`generate_slug`, source lines 22-33) -/

/-- ASCII fragment of Python `str.lower`, the only fragment that can produce
characters in `[a-z0-9-]` from `[A-Z]`; other code points are unchanged here
and are removed by the later filter. -/
def pyLower (c : Char) : Char :=
  if 'A' ≤ c ∧ c ≤ 'Z' then Char.ofNat (c.toNat + 32) else c

/-- Per-character model of `slug.replace(' ', '-')`. -/
def spaceToHyphen (c : Char) : Char :=
  if c = ' ' then '-' else c

/-- Membership in the character class `[a-z0-9\-]` of the first `re.sub`. -/
def isSlugChar (c : Char) : Bool :=
  (decide ('a' ≤ c) && decide (c ≤ 'z')) ||
    (decide ('0' ≤ c) && decide (c ≤ '9')) || (c = '-')

/-- Membership in `[a-z0-9]` (the character class of the slug pattern). -/
def isAlnumLower (c : Char) : Bool :=
  (decide ('a' ≤ c) && decide (c ≤ 'z')) || (decide ('0' ≤ c) && decide (c ≤ '9'))

/-- Model of `re.sub(r'-+', '-', slug)`: collapse each maximal run of hyphens to one
hyphen (a hyphen directly followed by another hyphen is dropped). -/
def collapseHyphens : List Char → List Char
  | [] => []
  | [c] => [c]
  | a :: b :: rest =>
      if a = '-' ∧ b = '-' then collapseHyphens (b :: rest)
      else a :: collapseHyphens (b :: rest)

/-- Remove the trailing run of hyphens (the right half of `slug.strip('-')`). -/
def stripTrailing : List Char → List Char
  | [] => []
  | c :: rest =>
      match stripTrailing rest with
      | [] => if c = '-' then [] else [c]
      | r => c :: r

/-- Model of `slug.strip('-')`: drop the leading and the trailing run of hyphens. -/
def stripHyphens (s : List Char) : List Char :=
  stripTrailing (s.dropWhile (fun c => c = '-'))

/-- Source `TMDBDatasetBuilder.generate_slug`: lowercase, spaces to hyphens, drop
characters outside `[a-z0-9-]`, collapse hyphen runs, strip end hyphens. -/
def generate_slug (title : List Char) : List Char :=
  stripHyphens (collapseHyphens
    (((title.map pyLower).map spaceToHyphen).filter isSlugChar))

/-- Deterministic automaton for the regular expression
`^[a-z0-9]+(-[a-z0-9]+)*$` starting after some prior character;
`lastAlnum` records whether that character was in `[a-z0-9]`. -/
def slugDFA (lastAlnum : Bool) : List Char → Bool
  | [] => lastAlnum
  | c :: rest =>
      if isAlnumLower c then slugDFA true rest
      else if c = '-' then lastAlnum && slugDFA false rest
      else false

/-- Full-string match of `^[a-z0-9]+(-[a-z0-9]+)*$`. -/
def matchesSlug (s : List Char) : Bool :=
  slugDFA false s

/-- No two adjacent hyphens anywhere in the string. -/
def noDoubleHyphen : List Char → Bool
  | [] => true
  | [_] => true
  | a :: b :: rest => !(a = '-' && b = '-') && noDoubleHyphen (b :: rest)

/-- The last character, if any, is not a hyphen. -/
def noEndHyphen : List Char → Bool
  | [] => true
  | [c] => !(c = '-')
  | _ :: rest => noEndHyphen rest

theorem collapseHyphens_cons (x : Char) (xs : List Char) :
    ∃ t, collapseHyphens (x :: xs) = x :: t := by
  induction xs generalizing x with
  | nil => exact ⟨[], rfl⟩
  | cons y ys ih =>
      by_cases h : x = '-' ∧ y = '-'
      · obtain ⟨t, ht⟩ := ih y
        refine ⟨t, ?_⟩
        rw [collapseHyphens, if_pos h, ht, h.1, h.2]
      · exact ⟨collapseHyphens (y :: ys), by rw [collapseHyphens, if_neg h]⟩

theorem mem_collapseHyphens {c : Char} : ∀ {s : List Char}, c ∈ collapseHyphens s → c ∈ s
  | [], h => h
  | [_], h => h
  | a :: b :: rest, h => by
      by_cases hab : a = '-' ∧ b = '-'
      · rw [collapseHyphens, if_pos hab] at h
        exact List.mem_cons_of_mem a (mem_collapseHyphens h)
      · rw [collapseHyphens, if_neg hab] at h
        rcases List.mem_cons.mp h with h1 | h2
        · exact List.mem_cons.mpr (Or.inl h1)
        · exact List.mem_cons_of_mem a (mem_collapseHyphens h2)

theorem noDoubleHyphen_tail {x : Char} {xs : List Char}
    (h : noDoubleHyphen (x :: xs) = true) : noDoubleHyphen xs = true := by
  cases xs with
  | nil => rfl
  | cons y ys =>
      rw [noDoubleHyphen, Bool.and_eq_true] at h
      exact h.2

theorem noDoubleHyphen_collapseHyphens :
    ∀ s : List Char, noDoubleHyphen (collapseHyphens s) = true
  | [] => rfl
  | [_] => rfl
  | a :: b :: rest => by
      by_cases hab : a = '-' ∧ b = '-'
      · rw [collapseHyphens, if_pos hab]
        exact noDoubleHyphen_collapseHyphens (b :: rest)
      · rw [collapseHyphens, if_neg hab]
        obtain ⟨t, ht⟩ := collapseHyphens_cons b rest
        rw [ht, noDoubleHyphen, Bool.and_eq_true]
        refine ⟨?_, ?_⟩
        · simp only [Bool.not_eq_eq_eq_not, Bool.not_true, Bool.and_eq_false_iff,
            decide_eq_false_iff_not]
          by_cases ha : a = '-'
          · exact Or.inr (by simpa [ha] using fun hb => hab ⟨ha, hb⟩)
          · exact Or.inl ha
        · rw [← ht]
          exact noDoubleHyphen_collapseHyphens (b :: rest)

theorem noDoubleHyphen_dropWhile (p : Char → Bool) :
    ∀ {l : List Char}, noDoubleHyphen l = true →
      noDoubleHyphen (l.dropWhile p) = true
  | [], _ => rfl
  | x :: xs, h => by
      rw [List.dropWhile_cons]
      by_cases hp : p x = true
      · rw [if_pos hp]
        exact noDoubleHyphen_dropWhile p (noDoubleHyphen_tail h)
      · rw [if_neg hp]
        exact h

theorem mem_stripTrailing {c : Char} : ∀ {l : List Char}, c ∈ stripTrailing l → c ∈ l
  | [], h => h
  | x :: xs, h => by
      rw [stripTrailing] at h
      cases hs : stripTrailing xs with
      | nil =>
          rw [hs] at h
          by_cases hx : x = '-'
          · rw [if_pos hx] at h
            exact absurd h (List.not_mem_nil c)
          · rw [if_neg hx] at h
            exact List.mem_cons.mpr (Or.inl (List.mem_singleton.mp h))
      | cons y ys =>
          rw [hs] at h
          rcases List.mem_cons.mp h with h1 | h2
          · exact List.mem_cons.mpr (Or.inl h1)
          · exact List.mem_cons_of_mem x (mem_stripTrailing (hs ▸ h2))

theorem stripTrailing_cons (c : Char) (t : List Char) :
    stripTrailing (c :: t) = [] ∨ ∃ t2, stripTrailing (c :: t) = c :: t2 := by
  rw [stripTrailing]
  cases hs : stripTrailing t with
  | nil =>
      by_cases hx : c = '-'
      · exact Or.inl (by rw [if_pos hx])
      · exact Or.inr ⟨[], by rw [if_neg hx]⟩
  | cons y ys => exact Or.inr ⟨y :: ys, rfl⟩

theorem noEndHyphen_stripTrailing : ∀ l : List Char, noEndHyphen (stripTrailing l) = true
  | [] => rfl
  | x :: xs => by
      rw [stripTrailing]
      cases hs : stripTrailing xs with
      | nil =>
          by_cases hx : x = '-'
          · rw [if_pos hx]; rfl
          · rw [if_neg hx, noEndHyphen]
            simpa using hx
      | cons y ys =>
          have h := noEndHyphen_stripTrailing xs
          rw [hs] at h
          exact h

theorem noDoubleHyphen_stripTrailing :
    ∀ {l : List Char}, noDoubleHyphen l = true → noDoubleHyphen (stripTrailing l) = true
  | [], _ => rfl
  | x :: xs, h => by
      rw [stripTrailing]
      cases hs : stripTrailing xs with
      | nil =>
          by_cases hx : x = '-'
          · rw [if_pos hx]; rfl
          · rw [if_neg hx]; rfl
      | cons y ys =>
          have htail : noDoubleHyphen (y :: ys) = true :=
            hs ▸ noDoubleHyphen_stripTrailing (noDoubleHyphen_tail h)
          cases xs with
          | nil => simp [stripTrailing] at hs
          | cons z zs =>
              have hy : y = z := by
                rcases stripTrailing_cons z zs with h0 | ⟨t2, ht2⟩
                · rw [h0] at hs; exact absurd hs (by simp)
                · rw [ht2] at hs
                  exact (List.cons.injEq _ _ _ _ ▸ hs).1.symm
              rw [noDoubleHyphen, Bool.and_eq_true]
              refine ⟨?_, htail⟩
              rw [noDoubleHyphen, Bool.and_eq_true] at h
              rw [hy]
              exact h.1

theorem pyLower_slugChar {c : Char} (h : isSlugChar c = true) : pyLower c = c := by
  rw [pyLower, if_neg]
  rintro ⟨hA, hZ⟩
  simp only [isSlugChar, Bool.or_eq_true, Bool.and_eq_true, decide_eq_true_eq] at h
  rcases h with (⟨h1, _⟩ | ⟨_, h2⟩) | h3
  · exact absurd (le_trans h1 hZ) (by decide)
  · exact absurd (le_trans hA h2) (by decide)
  · rw [h3] at hA
    exact absurd hA (by decide)

theorem spaceToHyphen_slugChar {c : Char} (h : isSlugChar c = true) :
    spaceToHyphen c = c := by
  rw [spaceToHyphen, if_neg]
  intro he
  rw [he] at h
  exact absurd h (by decide)

theorem slugChar_cases {c : Char} (h : isSlugChar c = true) :
    isAlnumLower c = true ∨ c = '-' := by
  simp only [isSlugChar, isAlnumLower, Bool.or_eq_true, Bool.and_eq_true,
    decide_eq_true_eq] at h ⊢
  tauto

theorem map_fix {f : Char → Char} :
    ∀ {l : List Char}, (∀ c ∈ l, f c = c) → l.map f = l
  | [], _ => rfl
  | x :: xs, h => by
    rw [List.map_cons, h x (List.mem_cons_self x xs),
      map_fix (fun c hc => h c (List.mem_cons_of_mem x hc))]

theorem collapseHyphens_fix :
    ∀ {l : List Char}, noDoubleHyphen l = true → collapseHyphens l = l
  | [], _ => rfl
  | [_], _ => rfl
  | a :: b :: rest, h => by
      rw [noDoubleHyphen, Bool.and_eq_true] at h
      have hab : ¬(a = '-' ∧ b = '-') := by
        rcases h with ⟨h1, _⟩
        simp only [Bool.not_eq_eq_eq_not, Bool.not_true, Bool.and_eq_false_iff,
          decide_eq_false_iff_not] at h1
        rintro ⟨ha, hb⟩
        rcases h1 with h1 | h1
        · exact h1 ha
        · exact h1 hb
      rw [collapseHyphens, if_neg hab, collapseHyphens_fix h.2]

theorem stripTrailing_fix :
    ∀ {l : List Char}, noEndHyphen l = true → stripTrailing l = l
  | [], _ => rfl
  | [c], h => by
      have hc : ¬ c = '-' := by simpa [noEndHyphen] using h
      simp [stripTrailing, hc]
  | a :: b :: rest, h => by
      have ih := stripTrailing_fix (l := b :: rest) h
      rw [stripTrailing, ih]

theorem dropWhile_head_not (p : Char → Bool) :
    ∀ l : List Char, l.dropWhile p = [] ∨ ∃ d t, l.dropWhile p = d :: t ∧ p d = false
  | [] => Or.inl rfl
  | x :: xs => by
      rw [List.dropWhile_cons]
      by_cases hp : p x = true
      · rw [if_pos hp]
        exact dropWhile_head_not p xs
      · rw [if_neg hp]
        exact Or.inr ⟨x, xs, rfl, by simpa using hp⟩

theorem slugDFA_true_of :
    ∀ {l : List Char}, (∀ c ∈ l, isSlugChar c = true) → noDoubleHyphen l = true →
      noEndHyphen l = true → slugDFA true l = true
  | [], _, _, _ => rfl
  | c :: rest, hmem, hdub, hend => by
      have hc := hmem c (List.mem_cons_self c rest)
      rcases slugChar_cases hc with hAl | hHy
      · rw [slugDFA, if_pos hAl]
        cases rest with
        | nil => rfl
        | cons d rest2 =>
            have ih := slugDFA_true_of (l := d :: rest2)
              (fun x hx => hmem x (List.mem_cons_of_mem c hx))
              (noDoubleHyphen_tail hdub) hend
            rw [slugDFA] at ih
            exact ih
      · cases rest with
        | nil =>
            rw [hHy] at hend
            exact absurd hend (by decide)
        | cons d rest2 =>
            have hd := hmem d (List.mem_cons_of_mem c (List.mem_cons_self d rest2))
            have hdAl : isAlnumLower d = true := by
              rcases slugChar_cases hd with h1 | h2
              · exact h1
              · exfalso
                rw [noDoubleHyphen, Bool.and_eq_true] at hdub
                rw [hHy, h2] at hdub
                exact absurd hdub.1 (by decide)
            have ih := slugDFA_true_of (l := d :: rest2)
              (fun x hx => hmem x (List.mem_cons_of_mem c hx))
              (noDoubleHyphen_tail hdub) hend
            rw [hHy, slugDFA, if_neg (by decide), if_pos rfl, Bool.true_and,
              slugDFA, if_pos hdAl]
            rw [slugDFA, if_pos hdAl] at ih
            exact ih

theorem generate_slug_props (title : List Char) :
    (∀ c ∈ generate_slug title, isSlugChar c = true)
    ∧ noDoubleHyphen (generate_slug title) = true
    ∧ noEndHyphen (generate_slug title) = true
    ∧ (generate_slug title = []
        ∨ ∃ c t, generate_slug title = c :: t ∧ isAlnumLower c = true) := by
  have hmem : ∀ c ∈ generate_slug title, isSlugChar c = true := by
    intro c hc
    have h1 := mem_stripTrailing hc
    have h2 := (List.dropWhile_sublist _).subset h1
    have h3 := mem_collapseHyphens h2
    exact (List.mem_filter.mp h3).2
  have hdubCollapse := noDoubleHyphen_collapseHyphens
    (((title.map pyLower).map spaceToHyphen).filter isSlugChar)
  have hdub : noDoubleHyphen (generate_slug title) = true :=
    noDoubleHyphen_stripTrailing (noDoubleHyphen_dropWhile _ hdubCollapse)
  have hend : noEndHyphen (generate_slug title) = true :=
    noEndHyphen_stripTrailing _
  refine ⟨hmem, hdub, hend, ?_⟩
  rcases dropWhile_head_not (fun c => c = '-')
      (collapseHyphens (((title.map pyLower).map spaceToHyphen).filter isSlugChar))
    with hnil | ⟨d, t, hdt, hdfalse⟩
  · left
    rw [generate_slug, stripHyphens, hnil]
    rfl
  · have hshape : generate_slug title = stripTrailing (d :: t) := by
      rw [generate_slug, stripHyphens, hdt]
    rcases stripTrailing_cons d t with h0 | ⟨t2, ht2⟩
    · left
      rw [hshape, h0]
    · right
      refine ⟨d, t2, by rw [hshape, ht2], ?_⟩
      have hdSlug : isSlugChar d = true := by
        apply hmem
        rw [hshape, ht2]
        exact List.mem_cons_self d t2
      rcases slugChar_cases hdSlug with h1 | h2
      · exact h1
      · rw [h2] at hdfalse
        exact absurd hdfalse (by decide)

/-- C1: `generate_slug` is idempotent, and its result matches
`^[a-z0-9]+(-[a-z0-9]+)*$` or is the empty string. -/
theorem generate_slug_idempotent_and_wellformed (title : List Char) :
    generate_slug (generate_slug title) = generate_slug title
    ∧ (matchesSlug (generate_slug title) = true ∨ generate_slug title = []) := by
  obtain ⟨hmem, hdub, hend, hshape⟩ := generate_slug_props title
  constructor
  · have hlow : (generate_slug title).map pyLower = generate_slug title :=
      map_fix (fun c hc => pyLower_slugChar (hmem c hc))
    have hsp : (generate_slug title).map spaceToHyphen = generate_slug title :=
      map_fix (fun c hc => spaceToHyphen_slugChar (hmem c hc))
    have hfil : (((generate_slug title).map pyLower).map spaceToHyphen).filter
        isSlugChar = generate_slug title := by
      rw [hlow, hsp]
      exact List.filter_eq_self.mpr hmem
    have hcol : collapseHyphens (generate_slug title) = generate_slug title :=
      collapseHyphens_fix hdub
    have hdrop : (generate_slug title).dropWhile (fun c => c = '-') =
        generate_slug title := by
      rcases hshape with h0 | ⟨c, t, hct, hAl⟩
      · rw [h0]
        rfl
      · rw [hct, List.dropWhile_cons, if_neg]
        intro hc
        rw [decide_eq_true_eq] at hc
        rw [hc] at hAl
        exact absurd hAl (by decide)
    rw [generate_slug, hfil, hcol, stripHyphens, hdrop, stripTrailing_fix hend]
  · rcases hshape with h0 | ⟨c, t, hct, hAl⟩
    · exact Or.inr h0
    · left
      have hr : slugDFA true (generate_slug title) = true :=
        slugDFA_true_of hmem hdub hend
      rw [hct] at hr
      rw [matchesSlug, hct, slugDFA, if_pos hAl]
      rw [slugDFA, if_pos hAl] at hr
      exact hr

/-! ### Image selection (`get_movie_images`, source lines 108-140)

The network fetch is abstracted away: the function is modelled on the list of
backdrop descriptors the endpoint returned.  `img.get('width', 0)` and
`img.get('vote_average', 0)` become `Option.getD`; Python `sorted` with key
`-vote_average` is a stable ascending sort by the negated score, i.e. a
stable descending sort by score, modelled by `List.insertionSort` (stable,
hence list-equal to any other stable sort under the same relation). -/

structure ImageCandidate where
  file_path : String
  width : Option Int
  vote_average : Option ℚ
deriving DecidableEq

def imgWidth (img : ImageCandidate) : Int :=
  img.width.getD 0

def imgVote (img : ImageCandidate) : ℚ :=
  img.vote_average.getD 0

/-- Comparison used by the sort: `a` may come before `b` iff
`-vote a ≤ -vote b`, i.e. `vote b ≤ vote a`. -/
def voteOrder (a b : ImageCandidate) : Prop :=
  imgVote b ≤ imgVote a

instance : DecidableRel voteOrder :=
  fun a b => inferInstanceAs (Decidable (imgVote b ≤ imgVote a))

instance : IsTotal ImageCandidate voteOrder :=
  ⟨fun a b => le_total (imgVote b) (imgVote a)⟩

instance : IsTrans ImageCandidate voteOrder :=
  ⟨fun _ _ _ h1 h2 => le_trans h2 h1⟩

/-- The `stills` list: descriptors of width at least 1920. -/
def hiResStills (backdrops : List ImageCandidate) : List ImageCandidate :=
  backdrops.filter (fun img => 1920 ≤ imgWidth img)

/-- Python `stills if stills else backdrops`: the list actually ranked. -/
def rankingPool (backdrops : List ImageCandidate) : List ImageCandidate :=
  if hiResStills backdrops = [] then backdrops else hiResStills backdrops

/-- Model of `sorted(stills if stills else backdrops, key=lambda x: -x.get('vote_average', 0))`. -/
def sorted_stills (backdrops : List ImageCandidate) : List ImageCandidate :=
  List.insertionSort voteOrder (rankingPool backdrops)

/-- Source `TMDBDatasetBuilder.get_movie_images` on a successful fetch. -/
def get_movie_images (backdrops : List ImageCandidate) : List String :=
  ((sorted_stills backdrops).take 3).map ImageCandidate.file_path

/-- C2: image selection filters by width ≥ 1920, ranks the high-resolution
subset when non-empty and otherwise the full set, orders by descending
quality score, and returns the file paths of at most the top 3; on the
spec's example the result is the score-9 path then the width-2000 path. -/
theorem get_movie_images_spec (backdrops : List ImageCandidate) :
    (sorted_stills backdrops).Perm (rankingPool backdrops)
    ∧ (sorted_stills backdrops).Sorted voteOrder
    ∧ rankingPool backdrops =
        (if hiResStills backdrops = [] then backdrops else hiResStills backdrops)
    ∧ hiResStills backdrops = backdrops.filter (fun img => 1920 ≤ imgWidth img)
    ∧ (get_movie_images backdrops).length = min 3 (rankingPool backdrops).length
    ∧ get_movie_images backdrops =
        ((sorted_stills backdrops).take 3).map ImageCandidate.file_path
    ∧ get_movie_images
        [⟨"p0", some 2000, some 5⟩, ⟨"p1", some 2200, some 9⟩,
          ⟨"p2", some 1000, some 10⟩] = ["p1", "p0"] := by
  refine ⟨List.perm_insertionSort _ _, List.sorted_insertionSort _ _, rfl, rfl,
    ?_, rfl, by decide⟩
  rw [get_movie_images, List.length_map, List.length_take, sorted_stills,
    List.length_insertionSort]

theorem filter_orderedInsert_vote_eq (q : ℚ) (x : ImageCandidate) :
    ∀ l : List ImageCandidate, imgVote x = q →
      (List.orderedInsert voteOrder x l).filter (fun i => decide (imgVote i = q)) =
        x :: l.filter (fun i => decide (imgVote i = q))
  | [], hx => by simp [hx]
  | y :: l, hx => by
      rw [List.orderedInsert]
      by_cases h : voteOrder x y
      · rw [if_pos h]
        simp [List.filter_cons, hx]
      · rw [if_neg h]
        have hy : ¬ imgVote y = q := by
          intro he
          exact h (le_of_eq (by rw [he, hx]))
        rw [List.filter_cons_of_neg (by simpa using hy),
          filter_orderedInsert_vote_eq q x l hx,
          List.filter_cons_of_neg (by simpa using hy)]

theorem filter_orderedInsert_vote_ne (q : ℚ) (x : ImageCandidate) :
    ∀ l : List ImageCandidate, ¬ imgVote x = q →
      (List.orderedInsert voteOrder x l).filter (fun i => decide (imgVote i = q)) =
        l.filter (fun i => decide (imgVote i = q))
  | [], hx => by simp [hx]
  | y :: l, hx => by
      rw [List.orderedInsert]
      by_cases h : voteOrder x y
      · rw [if_pos h, List.filter_cons_of_neg (by simpa using hx)]
      · rw [if_neg h]
        by_cases hy : imgVote y = q
        · rw [List.filter_cons_of_pos (by simpa using hy),
            filter_orderedInsert_vote_ne q x l hx,
            List.filter_cons_of_pos (by simpa using hy)]
        · rw [List.filter_cons_of_neg (by simpa using hy),
            filter_orderedInsert_vote_ne q x l hx,
            List.filter_cons_of_neg (by simpa using hy)]

theorem filter_insertionSort_vote (q : ℚ) :
    ∀ l : List ImageCandidate,
      (List.insertionSort voteOrder l).filter (fun i => decide (imgVote i = q)) =
        l.filter (fun i => decide (imgVote i = q))
  | [] => rfl
  | x :: l => by
      rw [List.insertionSort]
      by_cases hx : imgVote x = q
      · rw [filter_orderedInsert_vote_eq q x _ hx, filter_insertionSort_vote q l,
          List.filter_cons_of_pos (by simpa using hx)]
      · rw [filter_orderedInsert_vote_ne q x _ hx, filter_insertionSort_vote q l,
          List.filter_cons_of_neg (by simpa using hx)]

/-- C10: a descriptor with no width field is treated as width 0 and so never
enters the high-resolution subset; a descriptor with no quality-score field
is ranked with score 0; the ranking is stable (descriptors with any fixed
score keep their relative order from the ranked pool). -/
theorem get_movie_images_defaults_and_stable :
    (∀ (backdrops : List ImageCandidate) (x : ImageCandidate),
        x.width = none → x ∉ hiResStills backdrops)
    ∧ (∀ x : ImageCandidate, x.vote_average = none → imgVote x = 0)
    ∧ (∀ (backdrops : List ImageCandidate) (q : ℚ),
        (sorted_stills backdrops).filter (fun i => decide (imgVote i = q)) =
          (rankingPool backdrops).filter (fun i => decide (imgVote i = q))) := by
  refine ⟨?_, ?_, ?_⟩
  · intro backdrops x hx hmem
    have h := (List.mem_filter.mp hmem).2
    rw [decide_eq_true_eq, imgWidth, hx] at h
    exact absurd h (by decide)
  · intro x hx
    rw [imgVote, hx]
    rfl
  · intro backdrops q
    exact filter_insertionSort_vote q (rankingPool backdrops)

/-- Witness for C10 at concrete descriptors. -/
theorem get_movie_images_defaults_and_stable_witness :
    (⟨"a", none, some 5⟩ : ImageCandidate) ∉ hiResStills [⟨"a", none, some 5⟩]
    ∧ imgVote ⟨"b", some 2000, none⟩ = 0
    ∧ (sorted_stills [⟨"a", none, some 5⟩]).filter
        (fun i => decide (imgVote i = 5)) =
      (rankingPool [⟨"a", none, some 5⟩]).filter
        (fun i => decide (imgVote i = 5)) :=
  ⟨get_movie_images_defaults_and_stable.1 _ _ rfl,
    get_movie_images_defaults_and_stable.2.1 _ rfl,
    get_movie_images_defaults_and_stable.2.2 _ 5⟩

/-! ### Listing fetch (`get_top_movies`, source lines 74-106)

`fetchPage p` abstracts the page-`p` request: `none` is a raised/caught
per-page error (the `except: continue` path), `some results` a successful
response.  `fetchPagesT` is the source loop instrumented with a ghost trace:
the second component records, for each page actually requested, the pair
(page number, accumulator length at request time); the first component is
exactly the accumulated `movies` list of the source. -/

def fetchPagesT {α : Type} (fetchPage : Nat → Option (List α)) (total : Nat) :
    List Nat → List α → List α × List (Nat × Nat)
  | [], acc => (acc, [])
  | p :: ps, acc =>
      match fetchPage p with
      | none =>
          let r := fetchPagesT fetchPage total ps acc
          (r.1, (p, acc.length) :: r.2)
      | some results =>
          let acc2 := acc ++ results
          if total ≤ acc2.length then (acc2, [(p, acc.length)])
          else
            let r := fetchPagesT fetchPage total ps acc2
            (r.1, (p, acc.length) :: r.2)

/-- Source `TMDBDatasetBuilder.get_top_movies`: iterate pages `1..pages_needed`,
skip failed pages, break once `total_movies` are accumulated, return
`movies[:total_movies]`. -/
def get_top_movies {α : Type} (fetchPage : Nat → Option (List α))
    (total_movies : Nat) : List α :=
  (fetchPagesT fetchPage total_movies
    (List.range' 1 (total_movies / 20 + 1)) []).1.take total_movies

/-- Ghost observation: the pages `get_top_movies` requested, with the
accumulator length at the moment of each request. -/
def requestedPages {α : Type} (fetchPage : Nat → Option (List α))
    (total_movies : Nat) : List (Nat × Nat) :=
  (fetchPagesT fetchPage total_movies
    (List.range' 1 (total_movies / 20 + 1)) []).2

theorem fetchPagesT_cons_none {α : Type} {f : Nat → Option (List α)}
    {total p : Nat} {ps : List Nat} {acc : List α} (hf : f p = none) :
    fetchPagesT f total (p :: ps) acc =
      ((fetchPagesT f total ps acc).1,
        (p, acc.length) :: (fetchPagesT f total ps acc).2) := by
  rw [fetchPagesT, hf]

theorem fetchPagesT_cons_stop {α : Type} {f : Nat → Option (List α)}
    {total p : Nat} {ps : List Nat} {acc results : List α}
    (hf : f p = some results) (hlen : total ≤ (acc ++ results).length) :
    fetchPagesT f total (p :: ps) acc = (acc ++ results, [(p, acc.length)]) := by
  rw [fetchPagesT, hf]
  exact if_pos hlen

theorem fetchPagesT_cons_go {α : Type} {f : Nat → Option (List α)}
    {total p : Nat} {ps : List Nat} {acc results : List α}
    (hf : f p = some results) (hlen : ¬ total ≤ (acc ++ results).length) :
    fetchPagesT f total (p :: ps) acc =
      ((fetchPagesT f total ps (acc ++ results)).1,
        (p, acc.length) :: (fetchPagesT f total ps (acc ++ results)).2) := by
  rw [fetchPagesT, hf]
  exact if_neg hlen

theorem fetchPagesT_trace_length {α : Type} (f : Nat → Option (List α))
    (total : Nat) :
    ∀ (ps : List Nat) (acc : List α),
      (fetchPagesT f total ps acc).2.length ≤ ps.length
  | [], _ => Nat.le_refl 0
  | p :: ps, acc => by
      cases hf : f p with
      | none =>
          rw [fetchPagesT_cons_none hf]
          simpa using fetchPagesT_trace_length f total ps acc
      | some results =>
          by_cases h : total ≤ (acc ++ results).length
          · rw [fetchPagesT_cons_stop hf h]
            simp
          · rw [fetchPagesT_cons_go hf h]
            simpa using fetchPagesT_trace_length f total ps (acc ++ results)

theorem fetchPagesT_trace_mem {α : Type} (f : Nat → Option (List α))
    (total : Nat) :
    ∀ (ps : List Nat) (acc : List α),
      ∀ pr ∈ (fetchPagesT f total ps acc).2, pr.1 ∈ ps
  | [], _, _, h => absurd h (List.not_mem_nil _)
  | p :: ps, acc, pr, h => by
      cases hf : f p with
      | none =>
          rw [fetchPagesT_cons_none hf] at h
          rcases List.mem_cons.mp h with h1 | h2
          · rw [h1]
            exact List.mem_cons_self p ps
          · exact List.mem_cons_of_mem p (fetchPagesT_trace_mem f total ps acc pr h2)
      | some results =>
          by_cases hlen : total ≤ (acc ++ results).length
          · rw [fetchPagesT_cons_stop hf hlen] at h
            rw [List.mem_singleton.mp h]
            exact List.mem_cons_self p ps
          · rw [fetchPagesT_cons_go hf hlen] at h
            rcases List.mem_cons.mp h with h1 | h2
            · rw [h1]
              exact List.mem_cons_self p ps
            · exact List.mem_cons_of_mem p
                (fetchPagesT_trace_mem f total ps (acc ++ results) pr h2)

theorem fetchPagesT_trace_below {α : Type} (f : Nat → Option (List α))
    (total : Nat) :
    ∀ (ps : List Nat) (acc : List α), acc.length < total →
      ∀ pr ∈ (fetchPagesT f total ps acc).2, pr.2 < total
  | [], _, _, _, h => absurd h (List.not_mem_nil _)
  | p :: ps, acc, hacc, pr, h => by
      cases hf : f p with
      | none =>
          rw [fetchPagesT_cons_none hf] at h
          rcases List.mem_cons.mp h with h1 | h2
          · rw [h1]
            exact hacc
          · exact fetchPagesT_trace_below f total ps acc hacc pr h2
      | some results =>
          by_cases hlen : total ≤ (acc ++ results).length
          · rw [fetchPagesT_cons_stop hf hlen] at h
            rw [List.mem_singleton.mp h]
            exact hacc
          · rw [fetchPagesT_cons_go hf hlen] at h
            rcases List.mem_cons.mp h with h1 | h2
            · rw [h1]
              exact hacc
            · exact fetchPagesT_trace_below f total ps (acc ++ results)
                (Nat.lt_of_not_le hlen) pr h2

theorem fetchPagesT_acc {α : Type} (f : Nat → Option (List α)) (total : Nat) :
    ∀ (ps : List Nat) (acc : List α),
      (fetchPagesT f total ps acc).1 =
        acc ++ (((fetchPagesT f total ps acc).2.map Prod.fst).filterMap f).flatten
  | [], acc => by simp [fetchPagesT]
  | p :: ps, acc => by
      cases hf : f p with
      | none =>
          rw [fetchPagesT_cons_none hf]
          simp only [List.map_cons, List.filterMap_cons, hf]
          exact fetchPagesT_acc f total ps acc
      | some results =>
          by_cases hlen : total ≤ (acc ++ results).length
          · rw [fetchPagesT_cons_stop hf hlen]
            simp [hf]
          · rw [fetchPagesT_cons_go hf hlen]
            simp only [List.map_cons, List.filterMap_cons, hf, List.flatten_cons]
            rw [fetchPagesT_acc f total ps (acc ++ results), List.append_assoc]

/-- C3: with target `N ≥ 1`, the fetch requests at most `N / 20 + 1` pages,
all of them in `1..N/20+1`; every page request is issued while the
accumulator still holds fewer than `N` items (so fetching stops once `N` are
accumulated); at most `N` items are returned; and the returned list is
exactly the first `N` items of the concatenation, in request order, of the
successful pages' results. -/
theorem get_top_movies_spec {α : Type} (f : Nat → Option (List α)) (N : Nat)
    (hN : 1 ≤ N) :
    (requestedPages f N).length ≤ N / 20 + 1
    ∧ (∀ pr ∈ requestedPages f N, 1 ≤ pr.1 ∧ pr.1 ≤ N / 20 + 1)
    ∧ (∀ pr ∈ requestedPages f N, pr.2 < N)
    ∧ (get_top_movies f N).length ≤ N
    ∧ get_top_movies f N =
        ((((requestedPages f N).map Prod.fst).filterMap f).flatten).take N := by
  refine ⟨?_, ?_, ?_, ?_, ?_⟩
  · have h := fetchPagesT_trace_length f N (List.range' 1 (N / 20 + 1)) []
    rwa [List.length_range'] at h
  · intro pr hpr
    have h := fetchPagesT_trace_mem f N (List.range' 1 (N / 20 + 1)) [] pr hpr
    have h2 := List.mem_range'_1.mp h
    omega
  · intro pr hpr
    exact fetchPagesT_trace_below f N (List.range' 1 (N / 20 + 1)) []
      (by simp; omega) pr hpr
  · simp [get_top_movies]
  · rw [get_top_movies,
      fetchPagesT_acc f N (List.range' 1 (N / 20 + 1)) [], List.nil_append]
    rfl

/-- Witness for C3 at a concrete fetcher and target count 3. -/
theorem get_top_movies_spec_witness :
    (requestedPages (fun p => if p = 1 then some [10, 11, 12, 13] else none) 3).length
        ≤ 3 / 20 + 1
    ∧ (∀ pr ∈ requestedPages
          (fun p => if p = 1 then some [10, 11, 12, 13] else none) 3, pr.2 < 3)
    ∧ get_top_movies (fun p => if p = 1 then some [10, 11, 12, 13] else none) 3
        = [10, 11, 12] := by
  have h := get_top_movies_spec
    (fun p => if p = 1 then some [10, 11, 12, 13] else none) 3 (by decide)
  exact ⟨h.1, h.2.2.1, by decide⟩

/-! ### Dataset build loop (`build_dataset`, source lines 222-325)

The loop body's network and filesystem work decides, per listing entry,
whether the entry is skipped (`continue` before `dataset.append`) or
materialized with some record; that outcome does not depend on the loop
index, so the loop is modelled on a list of per-entry outcomes
`List (Option R)`.  `idx` is the 1-based `enumerate(movies, 1)` counter.
The ghost save trace records, for every `save_dataset` call made inside the
loop (`if idx % 50 == 0`), the pair (idx, snapshot persisted); the final
unconditional `save_dataset(dataset)` persists the first component. -/

def buildLoop {R : Type} : List (Option R) → Nat → List R →
    List (Nat × List R) → List R × List (Nat × List R)
  | [], _, dataset, saves => (dataset, saves)
  | none :: ms, idx, dataset, saves => buildLoop ms (idx + 1) dataset saves
  | some r :: ms, idx, dataset, saves =>
      buildLoop ms (idx + 1) (dataset ++ [r])
        (if idx % 50 = 0 then saves ++ [(idx, dataset ++ [r])] else saves)

/-- Source `TMDBDatasetBuilder.build_dataset` on the per-entry outcomes: returns the
final collection (contents of the unconditional final save) and the trace of
periodic saves. -/
def build_dataset {R : Type} (entries : List (Option R)) :
    List R × List (Nat × List R) :=
  buildLoop entries 1 [] []

def finalDataset {R : Type} (entries : List (Option R)) : List R :=
  (build_dataset entries).1

def periodicSaves {R : Type} (entries : List (Option R)) : List (Nat × List R) :=
  (build_dataset entries).2

/-- 1-based positions paired with the entries. -/
def withPositions {R : Type} : Nat → List (Option R) → List (Nat × Option R)
  | _, [] => []
  | i, m :: ms => (i, m) :: withPositions (i + 1) ms

theorem buildLoop_dataset {R : Type} :
    ∀ (ms : List (Option R)) (idx : Nat) (d : List R) (s : List (Nat × List R)),
      (buildLoop ms idx d s).1 = d ++ ms.filterMap id
  | [], _, d, _ => by simp [buildLoop]
  | none :: ms, idx, d, s => by
      rw [buildLoop, buildLoop_dataset ms (idx + 1) d s]
      simp
  | some r :: ms, idx, d, s => by
      rw [buildLoop, buildLoop_dataset ms (idx + 1) (d ++ [r]) _]
      simp

theorem buildLoop_save_keys {R : Type} :
    ∀ (ms : List (Option R)) (idx : Nat) (d : List R) (s : List (Nat × List R)),
      (buildLoop ms idx d s).2.map Prod.fst =
        s.map Prod.fst ++
          ((withPositions idx ms).filter
            (fun p => p.2.isSome && decide (p.1 % 50 = 0))).map Prod.fst
  | [], _, _, _ => by simp [buildLoop, withPositions]
  | none :: ms, idx, d, s => by
      rw [buildLoop, buildLoop_save_keys ms (idx + 1) d s, withPositions]
      simp
  | some r :: ms, idx, d, s => by
      rw [buildLoop, withPositions]
      by_cases h : idx % 50 = 0
      · rw [if_pos h, buildLoop_save_keys ms (idx + 1) (d ++ [r]) _]
        simp [h]
      · rw [if_neg h, buildLoop_save_keys ms (idx + 1) (d ++ [r]) s]
        simp [h]

theorem buildLoop_save_snapshots {R : Type} :
    ∀ (ms : List (Option R)) (idx : Nat) (d : List R) (s : List (Nat × List R)),
      ∀ p ∈ (buildLoop ms idx d s).2,
        p ∈ s ∨ (idx ≤ p.1 ∧ p.2 = d ++ (ms.take (p.1 + 1 - idx)).filterMap id)
  | [], _, _, _, p, hp => Or.inl hp
  | none :: ms, idx, d, s, p, hp => by
      rw [buildLoop] at hp
      rcases buildLoop_save_snapshots ms (idx + 1) d s p hp with h | ⟨h1, h2⟩
      · exact Or.inl h
      · refine Or.inr ⟨Nat.le_of_succ_le h1, ?_⟩
        have hk : p.1 + 1 - idx = (p.1 - idx) + 1 := by omega
        have hk2 : p.1 + 1 - (idx + 1) = p.1 - idx := by omega
        rw [hk, List.take_succ_cons, List.filterMap_cons]
        rw [hk2] at h2
        exact h2
  | some r :: ms, idx, d, s, p, hp => by
      rw [buildLoop] at hp
      have step := buildLoop_save_snapshots ms (idx + 1) (d ++ [r]) _ p hp
      have hsnap : idx + 1 ≤ p.1 →
          p.2 = (d ++ [r]) ++ (ms.take (p.1 - idx)).filterMap id →
          p.2 = d ++ ((some r :: ms).take (p.1 + 1 - idx)).filterMap id := by
        intro h1 h2
        have hk : p.1 + 1 - idx = (p.1 - idx) + 1 := by omega
        rw [hk, List.take_succ_cons, List.filterMap_cons]
        simpa [List.append_assoc] using h2
      rcases step with h | ⟨h1, h2⟩
      · by_cases hm : idx % 50 = 0
        · rw [if_pos hm] at h
          rcases List.mem_append.mp h with h0 | h0
          · exact Or.inl h0
          · have hpe : p = (idx, d ++ [r]) := List.mem_singleton.mp h0
            refine Or.inr ⟨by rw [hpe], ?_⟩
            rw [hpe]
            have hk : idx + 1 - idx = 1 := by omega
            simp [hk, List.take_succ_cons, List.filterMap_cons]
        · rw [if_neg hm] at h
          exact Or.inl h
      · have hk2 : p.1 + 1 - (idx + 1) = p.1 - idx := by omega
        rw [hk2] at h2
        exact Or.inr ⟨Nat.le_of_succ_le h1, hsnap h1 h2⟩

/-- Counterexample to C4 as stated: 51 entries, the 50th skipped.  The code
performs no periodic save at position 50 (the `continue` jumps over the
`idx % 50` check), even though position 50 is within the listing. -/
theorem build_dataset_no_save_at_skipped_50 :
    periodicSaves (List.replicate 49 (some 0) ++ [none, some (1 : Nat)]) = []
    ∧ (List.replicate 49 (some 0) ++ [none, some (1 : Nat)]).length = 51
    ∧ (List.replicate 49 (some 0) ++ [none, some (1 : Nat)])[49]? = some none := by
  refine ⟨by decide, by decide, by decide⟩

/-- C4 (amended): the final collection (persisted by the unconditional final
save) is the list of materialized records in listing order; a periodic save
happens exactly at the positions divisible by 50 whose entry is materialized
(a skipped entry triggers none, even at a multiple of 50); and each periodic
save persists the full collection accumulated through its position. -/
theorem build_dataset_saves_spec {R : Type} (entries : List (Option R)) :
    finalDataset entries = entries.filterMap id
    ∧ (periodicSaves entries).map Prod.fst =
        ((withPositions 1 entries).filter
          (fun p => p.2.isSome && decide (p.1 % 50 = 0))).map Prod.fst
    ∧ ∀ p ∈ periodicSaves entries, p.2 = (entries.take p.1).filterMap id := by
  refine ⟨?_, ?_, ?_⟩
  · rw [finalDataset, build_dataset, buildLoop_dataset, List.nil_append]
  · rw [periodicSaves, build_dataset, buildLoop_save_keys]
    simp
  · intro p hp
    rcases buildLoop_save_snapshots entries 1 [] [] p hp with h | ⟨h1, h2⟩
    · exact absurd h (List.not_mem_nil p)
    · have hk : p.1 + 1 - 1 = p.1 := by omega
      rw [hk] at h2
      simpa using h2

/-- Witness for the amended C4: 51 entries, all materialized; the single
periodic save happens at position 50 and persists the first 50 records. -/
theorem build_dataset_saves_spec_witness :
    finalDataset (List.replicate 51 (some (7 : Nat))) = List.replicate 51 7
    ∧ (50, List.replicate 50 (7 : Nat)) ∈
        periodicSaves (List.replicate 51 (some (7 : Nat)))
    ∧ (50, List.replicate 50 (7 : Nat)).2 =
        ((List.replicate 51 (some (7 : Nat))).take 50).filterMap id := by
  have h := build_dataset_saves_spec (List.replicate 51 (some (7 : Nat)))
  refine ⟨by simpa using h.1, by decide, ?_⟩
  exact h.2.2 (50, List.replicate 50 7) (by decide)

/-! ### Persisted records and the filesystem -/

/-- The persisted per-item record (`movie_data` / one element of
`movies.json`).  `slug` is optional because legacy persisted records may
lack the field (it is backfilled); `original_title` is optional because the
source writes it only conditionally. -/
structure MovieRecord where
  id : Nat
  title : List Char
  slug : Option (List Char)
  year : List Char
  overview : Option String
  rating : Option ℚ
  genres : List (List Char)
  images : List String
  original_title : Option (List Char)
deriving DecidableEq

/-- Existence oracles for the output directory tree: `dirOnDisk id` is
`(output_dir / str(id)).exists()`, `fileOnDisk id name` is
`(output_dir / str(id) / name).exists()`. -/
structure FileSystem where
  dirOnDisk : Nat → Bool
  fileOnDisk : Nat → String → Bool

/-- Source `TMDBDatasetBuilder.verify_and_clean_images` (lines 56-72): keep,
in order, exactly the filenames whose file exists in the item directory. -/
def verify_and_clean_images (onDisk : String → Bool) (image_list : List String) :
    List String :=
  image_list.filter onDisk

/-- C8: the cleaned list is an ordered subsequence of the input, and a
filename is kept exactly when it appears in the input and its file exists. -/
theorem verify_and_clean_images_spec (onDisk : String → Bool)
    (image_list : List String) :
    (verify_and_clean_images onDisk image_list).Sublist image_list
    ∧ ∀ f, f ∈ verify_and_clean_images onDisk image_list ↔
        f ∈ image_list ∧ onDisk f = true := by
  refine ⟨List.filter_sublist image_list, ?_⟩
  intro f
  exact List.mem_filter

/-! ### Missing-image sweep (`cleanup_missing_images`, source lines 336-403) -/

/-- The sweep's slug backfill (`if 'slug' not in movie_data`). -/
def backfillSlug (m : MovieRecord) : MovieRecord :=
  if m.slug = none then { m with slug := some (generate_slug m.title) } else m

/-- The loop of `cleanup_missing_images` over the loaded dataset, returning
(updated dataset, total_removed, movies_removed). -/
def cleanupLoop (fs : FileSystem) : List MovieRecord →
    List MovieRecord × Nat × Nat
  | [] => ([], 0, 0)
  | m :: ms =>
      let rest := cleanupLoop fs ms
      if fs.dirOnDisk m.id then
        let m1 := backfillSlug m
        let valid := verify_and_clean_images (fs.fileOnDisk m.id) m1.images
        let removed := m1.images.length - valid.length
        let m2 := if valid.length ≠ m1.images.length
          then { m1 with images := valid } else m1
        if valid = [] then (rest.1, rest.2.1 + removed, rest.2.2 + 1)
        else (m2 :: rest.1, rest.2.1 + removed, rest.2.2)
      else (rest.1, rest.2.1, rest.2.2 + 1)

/-- Source `TMDBDatasetBuilder.cleanup_missing_images`: the updated dataset, and
whether the aggregate file was rewritten
(`total_removed > 0 or movies_removed > 0`). -/
def cleanup_missing_images (fs : FileSystem) (dataset : List MovieRecord) :
    List MovieRecord × Bool :=
  let res := cleanupLoop fs dataset
  (res.1, decide (0 < res.2.1 ∨ 0 < res.2.2))

/-- The sweep's effect on a single record: `none` when the record is dropped,
`some m2` when it is kept as `m2`. -/
def cleanupRecord (fs : FileSystem) (m : MovieRecord) : Option MovieRecord :=
  if fs.dirOnDisk m.id then
    let m1 := backfillSlug m
    let valid := verify_and_clean_images (fs.fileOnDisk m.id) m1.images
    if valid = [] then none
    else some (if valid.length ≠ m1.images.length
      then { m1 with images := valid } else m1)
  else none

def sumImages : List MovieRecord → Nat
  | [] => 0
  | m :: ms => m.images.length + sumImages ms

theorem backfillSlug_images (m : MovieRecord) : (backfillSlug m).images = m.images := by
  rw [backfillSlug]
  split <;> rfl

theorem backfillSlug_id (m : MovieRecord) : (backfillSlug m).id = m.id := by
  rw [backfillSlug]
  split <;> rfl

theorem backfillSlug_title (m : MovieRecord) : (backfillSlug m).title = m.title := by
  rw [backfillSlug]
  split <;> rfl

theorem cleanupLoop_fst (fs : FileSystem) :
    ∀ ds : List MovieRecord, (cleanupLoop fs ds).1 = ds.filterMap (cleanupRecord fs)
  | [] => rfl
  | m :: ms => by
      have ih := cleanupLoop_fst fs ms
      by_cases hdir : fs.dirOnDisk m.id = true
      · by_cases hempty :
          verify_and_clean_images (fs.fileOnDisk m.id) (backfillSlug m).images = []
        · simp [cleanupLoop, cleanupRecord, hdir, hempty, ih, List.filterMap_cons]
        · simp [cleanupLoop, cleanupRecord, hdir, hempty, ih, List.filterMap_cons]
      · simp [cleanupLoop, cleanupRecord, hdir, ih, List.filterMap_cons]

theorem cleanupLoop_count (fs : FileSystem) :
    ∀ ds : List MovieRecord,
      (cleanupLoop fs ds).1.length + (cleanupLoop fs ds).2.2 = ds.length
  | [] => rfl
  | m :: ms => by
      have ih := cleanupLoop_count fs ms
      by_cases hdir : fs.dirOnDisk m.id = true
      · by_cases hempty :
          verify_and_clean_images (fs.fileOnDisk m.id) (backfillSlug m).images = []
        · simp only [cleanupLoop, hdir, hempty, if_true, if_pos]
          simp only [List.length_cons] at *
          omega
        · simp only [cleanupLoop, hdir, if_true]
          rw [if_neg hempty]
          simp only [List.length_cons] at *
          omega
      · simp only [cleanupLoop, hdir, if_false, Bool.false_eq_true]
        simp only [List.length_cons] at *
        omega

theorem cleanupLoop_images (fs : FileSystem) :
    ∀ ds : List MovieRecord,
      sumImages (cleanupLoop fs ds).1 + (cleanupLoop fs ds).2.1 ≤ sumImages ds
  | [] => Nat.le_refl 0
  | m :: ms => by
      have ih := cleanupLoop_images fs ms
      have hv : (verify_and_clean_images (fs.fileOnDisk m.id)
          (backfillSlug m).images).length ≤ m.images.length := by
        rw [← backfillSlug_images m]
        exact List.length_filter_le _ _
      by_cases hdir : fs.dirOnDisk m.id = true
      · by_cases hempty :
          verify_and_clean_images (fs.fileOnDisk m.id) (backfillSlug m).images = []
        · simp only [cleanupLoop, hdir, if_true]
          rw [if_pos hempty]
          simp only [sumImages, backfillSlug_images] at *
          omega
        · simp only [cleanupLoop, hdir, if_true]
          rw [if_neg hempty]
          by_cases hlen : (verify_and_clean_images (fs.fileOnDisk m.id)
              (backfillSlug m).images).length ≠ (backfillSlug m).images.length
          · rw [if_pos hlen]
            simp only [sumImages, backfillSlug_images] at *
            omega
          · rw [if_neg hlen]
            simp only [sumImages, backfillSlug_images] at *
            omega
      · simp only [cleanupLoop, hdir, if_false, Bool.false_eq_true]
        simp only [sumImages] at *
        omega

theorem sumImages_congr {l1 l2 : List MovieRecord} (h : l1 = l2) :
    sumImages l1 = sumImages l2 := by rw [h]

/-- C5: the sweep drops a record whose directory is missing, drops from a
kept record exactly the filenames whose file is missing, drops records left
with no valid image, keeps the rest with the corrected image list, and
rewrites the aggregate only if some change occurred; with the claim's
concrete instances. -/
theorem cleanup_missing_images_spec (fs : FileSystem) (ds : List MovieRecord) :
    (cleanup_missing_images fs ds).1 = ds.filterMap (cleanupRecord fs)
    ∧ (∀ m : MovieRecord, fs.dirOnDisk m.id = false → cleanupRecord fs m = none)
    ∧ (∀ m : MovieRecord, verify_and_clean_images (fs.fileOnDisk m.id) m.images = [] →
        cleanupRecord fs m = none)
    ∧ (∀ m m2 : MovieRecord, cleanupRecord fs m = some m2 →
        m2.images = verify_and_clean_images (fs.fileOnDisk m.id) m.images
        ∧ m2.images ≠ [] ∧ m2.id = m.id ∧ m2.title = m.title)
    ∧ ((cleanup_missing_images fs ds).2 = true → (cleanup_missing_images fs ds).1 ≠ ds)
    ∧ (cleanupRecord ⟨fun _ => true, fun _ n => decide (n = "still_0.webp")⟩
        ⟨1, ['t'], some ['t'], [], none, none, [],
          ["still_0.webp", "still_1.webp"], none⟩).map MovieRecord.images =
        some ["still_0.webp"]
    ∧ (cleanup_missing_images ⟨fun _ => true, fun _ _ => false⟩
        [⟨1, ['t'], some ['t'], [], none, none, [],
          ["still_0.webp", "still_1.webp"], none⟩]).1 = [] := by
  refine ⟨?_, ?_, ?_, ?_, ?_, by decide, by decide⟩
  · rw [cleanup_missing_images]
    exact cleanupLoop_fst fs ds
  · intro m hm
    rw [cleanupRecord, if_neg]
    simp [hm]
  · intro m hm
    have hm2 : verify_and_clean_images (fs.fileOnDisk m.id)
        (backfillSlug m).images = [] := by
      rw [backfillSlug_images]
      exact hm
    by_cases hdir : fs.dirOnDisk m.id = true
    · simp [cleanupRecord, hdir, hm2]
    · simp [cleanupRecord, hdir]
  · intro m m2 h
    by_cases hdir : fs.dirOnDisk m.id = true
    · rw [cleanupRecord, if_pos hdir] at h
      by_cases hempty :
          verify_and_clean_images (fs.fileOnDisk m.id) (backfillSlug m).images = []
      · simp [hempty] at h
      · simp only [hempty, if_neg, if_false] at h
        by_cases hlen : (verify_and_clean_images (fs.fileOnDisk m.id)
            (backfillSlug m).images).length ≠ (backfillSlug m).images.length
        · rw [if_pos hlen] at h
          have hm2 := (Option.some.injEq _ _).mp h
          rw [← hm2]
          refine ⟨by simp [backfillSlug_images], ?_, by simp [backfillSlug_id], ?_⟩
          · simpa [backfillSlug_images] using hempty
          · simp [backfillSlug_title]
        · rw [if_neg hlen] at h
          have hm2 := (Option.some.injEq _ _).mp h
          have hlen2 : (verify_and_clean_images (fs.fileOnDisk m.id)
              (backfillSlug m).images).length = (backfillSlug m).images.length := by
            omega
          have heq : verify_and_clean_images (fs.fileOnDisk m.id)
              (backfillSlug m).images = (backfillSlug m).images :=
            (List.filter_sublist _).eq_of_length hlen2
          rw [backfillSlug_images] at heq
          rw [← hm2]
          refine ⟨?_, ?_, by rw [backfillSlug_id], by rw [backfillSlug_title]⟩
          · rw [backfillSlug_images]
            exact heq.symm
          · rw [backfillSlug_images]
            intro h0
            apply hempty
            rw [backfillSlug_images, h0]
            rfl
    · rw [cleanupRecord, if_neg (by simp [hdir])] at h
      exact absurd h (by simp)
  · intro hflag heq
    rw [cleanup_missing_images] at hflag
    have h2 : 0 < (cleanupLoop fs ds).2.1 ∨ 0 < (cleanupLoop fs ds).2.2 :=
      of_decide_eq_true hflag
    rw [cleanup_missing_images] at heq
    rcases h2 with h3 | h3
    · have himg := cleanupLoop_images fs ds
      rw [sumImages_congr heq] at himg
      omega
    · have hcnt := cleanupLoop_count fs ds
      rw [heq] at hcnt
      omega

/-- Witness for C5: a record whose directory is missing is dropped, and a
sweep that drops a record reports a rewrite and changes the dataset. -/
theorem cleanup_missing_images_spec_witness :
    cleanupRecord ⟨fun i => decide (i = 1), fun _ _ => true⟩
        ⟨2, ['b'], some ['b'], [], none, none, [], ["x"], none⟩ = none
    ∧ (cleanup_missing_images ⟨fun _ => false, fun _ _ => true⟩
        [⟨2, ['b'], some ['b'], [], none, none, [], ["x"], none⟩]).1 ≠
        [⟨2, ['b'], some ['b'], [], none, none, [], ["x"], none⟩] := by
  have h := cleanup_missing_images_spec ⟨fun i => decide (i = 1), fun _ _ => true⟩ []
  have h2 := cleanup_missing_images_spec ⟨fun _ => false, fun _ _ => true⟩
    [⟨2, ['b'], some ['b'], [], none, none, [], ["x"], none⟩]
  exact ⟨h.2.1 _ (by decide), h2.2.2.2.2.1 (by decide)⟩

/-! ### Delete-list processing (`process_delete_list`, source lines 405-454)

Modelled on the confirmed path (the user answered `yes`).  `unlinkFails`
abstracts whether `file_path.unlink()` raises; the per-item outcome is the
trace of the loop's three branches. -/

structure DeleteItem where
  movieId : Nat
  filename : String
  movieTitle : List Char
deriving DecidableEq

inductive DeleteOutcome
  | deleted
  | notFound
  | errorCaught
deriving DecidableEq

/-- Model of `file_path.unlink()` on the existence oracle. -/
def removeFile (fs : FileSystem) (mid : Nat) (name : String) : FileSystem :=
  { fs with fileOnDisk := fun i n =>
      if i = mid ∧ n = name then false else fs.fileOnDisk i n }

/-- One iteration of the deletion loop: existence check, attempted unlink
with a broad `except` converting a raise into a counted failure. -/
def attemptDelete (unlinkFails : DeleteItem → Bool) (fs : FileSystem)
    (item : DeleteItem) : DeleteOutcome × FileSystem :=
  if fs.fileOnDisk item.movieId item.filename then
    if unlinkFails item then (DeleteOutcome.errorCaught, fs)
    else (DeleteOutcome.deleted, removeFile fs item.movieId item.filename)
  else (DeleteOutcome.notFound, fs)

/-- The deletion loop over the confirmed delete list: the outcome of every
attempt, in order, and the resulting filesystem. -/
def deletionLoop (unlinkFails : DeleteItem → Bool) (fs : FileSystem) :
    List DeleteItem → List (DeleteItem × DeleteOutcome) × FileSystem
  | [] => ([], fs)
  | item :: rest =>
      let step := attemptDelete unlinkFails fs item
      let further := deletionLoop unlinkFails step.2 rest
      ((item, step.1) :: further.1, further.2)

/-- Source `TMDBDatasetBuilder.process_delete_list` after confirmation: attempt all
deletions, then unconditionally run the missing-image sweep on the resulting
filesystem state. -/
def process_delete_list (unlinkFails : DeleteItem → Bool) (fs : FileSystem)
    (items : List DeleteItem) (dataset : List MovieRecord) :
    List (DeleteItem × DeleteOutcome) × (List MovieRecord × Bool) :=
  let del := deletionLoop unlinkFails fs items
  (del.1, cleanup_missing_images del.2 dataset)

theorem deletionLoop_all_attempted (unlinkFails : DeleteItem → Bool) :
    ∀ (fs : FileSystem) (items : List DeleteItem),
      (deletionLoop unlinkFails fs items).1.map Prod.fst = items
  | _, [] => rfl
  | fs, item :: rest => by
      rw [deletionLoop]
      simp only [List.map_cons]
      rw [deletionLoop_all_attempted unlinkFails _ rest]

/-- C6: every entry of a confirmed delete list is attempted (an unlink error
on one entry, caught as `errorCaught`, does not stop the later attempts); an
entry whose file does not exist yields the `notFound` report without raising
and leaves the filesystem unchanged; and afterwards the missing-image sweep
is unconditionally run on the post-deletion filesystem. -/
theorem process_delete_list_spec (unlinkFails : DeleteItem → Bool)
    (fs : FileSystem) (items : List DeleteItem) (dataset : List MovieRecord) :
    (deletionLoop unlinkFails fs items).1.map Prod.fst = items
    ∧ (∀ (fs2 : FileSystem) (item : DeleteItem),
        fs2.fileOnDisk item.movieId item.filename = false →
        attemptDelete unlinkFails fs2 item = (DeleteOutcome.notFound, fs2))
    ∧ (∀ (fs2 : FileSystem) (item : DeleteItem) (rest : List DeleteItem),
        fs2.fileOnDisk item.movieId item.filename = true → unlinkFails item = true →
        deletionLoop unlinkFails fs2 (item :: rest) =
          ((item, DeleteOutcome.errorCaught) :: (deletionLoop unlinkFails fs2 rest).1,
            (deletionLoop unlinkFails fs2 rest).2))
    ∧ (process_delete_list unlinkFails fs items dataset).2 =
        cleanup_missing_images (deletionLoop unlinkFails fs items).2 dataset := by
  refine ⟨deletionLoop_all_attempted unlinkFails fs items, ?_, ?_, rfl⟩
  · intro fs2 item h
    rw [attemptDelete, if_neg]
    simp [h]
  · intro fs2 item rest hfile hfail
    rw [deletionLoop]
    simp [attemptDelete, hfile, hfail]

/-- Witness for C6: a missing file reports `notFound`; a failing unlink is
caught and the remaining items are still attempted. -/
theorem process_delete_list_spec_witness :
    attemptDelete (fun _ => false) ⟨fun _ => true, fun _ _ => false⟩
        ⟨1, "still_0.webp", ['t']⟩ =
      (DeleteOutcome.notFound, ⟨fun _ => true, fun _ _ => false⟩)
    ∧ deletionLoop (fun _ => true) ⟨fun _ => true, fun _ _ => true⟩
        [⟨1, "a", ['t']⟩] =
      ((⟨1, "a", ['t']⟩, DeleteOutcome.errorCaught) ::
          (deletionLoop (fun _ => true) ⟨fun _ => true, fun _ _ => true⟩ []).1,
        (deletionLoop (fun _ => true) ⟨fun _ => true, fun _ _ => true⟩ []).2) := by
  have h := process_delete_list_spec (fun _ => false)
    ⟨fun _ => true, fun _ _ => false⟩ [] []
  have h2 := process_delete_list_spec (fun _ => true)
    ⟨fun _ => true, fun _ _ => true⟩ [] []
  exact ⟨h.2.1 _ _ rfl, h2.2.2.1 _ _ [] rfl rfl⟩

/-! ### Record assembly in `build_dataset` (source lines 222-285) -/

/-- One element of the listing endpoint's `results` (the fields the builder
reads). -/
structure ListingEntry where
  id : Nat
  title : List Char
  original_title : Option (List Char)
  release_date : Option (List Char)
  overview : Option String
  vote_average : Option ℚ
  genre_ids : List Int
deriving DecidableEq

/-- The placeholder string of `f"Unknown_{gid}"`. -/
def unknownGenre (gid : Int) : List Char :=
  "Unknown_".toList ++ (toString gid).toList

/-- Model of `[self.genres.get(gid, f"Unknown_{gid}") for gid in movie.get('genre_ids', [])]`. -/
def genreNames (genres : Int → Option (List Char)) (ids : List Int) :
    List (List Char) :=
  ids.map (fun gid => (genres gid).getD (unknownGenre gid))

/-- Model of `if original_title and original_title != title:` — the field is set only
when the fetched alternate title is truthy (non-empty) and differs from the
title. -/
def optOriginalTitle (title : List Char) : Option (List Char) → Option (List Char)
  | none => none
  | some t => if t ≠ [] ∧ t ≠ title then some t else none

/-- The `movie_data` dict built for a new entry (source lines 262-282),
given the loaded genre map and the images downloaded for the entry. -/
def buildMovieData (genres : Int → Option (List Char)) (movie : ListingEntry)
    (downloaded_images : List String) : MovieRecord :=
  { id := movie.id
    title := movie.title
    slug := some (generate_slug movie.title)
    year := (movie.release_date.getD []).take 4
    overview := movie.overview
    rating := movie.vote_average
    genres := genreNames genres movie.genre_ids
    images := downloaded_images
    original_title := optOriginalTitle movie.title movie.original_title }

/-- C7: a new record carries `original_title` only when the listing entry's
alternate title differs from its title; when it is absent or equal to the
title the field is omitted. -/
theorem buildMovieData_original_title (genres : Int → Option (List Char))
    (movie : ListingEntry) (downloaded_images : List String) :
    ((buildMovieData genres movie downloaded_images).original_title ≠ none →
      ∃ t, movie.original_title = some t ∧ t ≠ movie.title ∧ t ≠ [])
    ∧ (movie.original_title = none →
        (buildMovieData genres movie downloaded_images).original_title = none)
    ∧ (movie.original_title = some movie.title →
        (buildMovieData genres movie downloaded_images).original_title = none) := by
  have hot : (buildMovieData genres movie downloaded_images).original_title =
      optOriginalTitle movie.title movie.original_title := rfl
  refine ⟨?_, ?_, ?_⟩
  · intro h
    rw [hot] at h
    cases ht : movie.original_title with
    | none =>
        rw [ht, optOriginalTitle] at h
        exact absurd rfl h
    | some t =>
        rw [ht, optOriginalTitle] at h
        by_cases hc : t ≠ [] ∧ t ≠ movie.title
        · exact ⟨t, rfl, hc.2, hc.1⟩
        · rw [if_neg hc] at h
          exact absurd rfl h
  · intro h
    rw [hot, h, optOriginalTitle]
  · intro h
    rw [hot, h, optOriginalTitle, if_neg]
    intro hc
    exact hc.2 rfl

/-- Witness for C7 at concrete entries. -/
theorem buildMovieData_original_title_witness :
    (buildMovieData (fun _ => none)
        ⟨1, ['t'], some ['t'], none, none, none, []⟩ []).original_title = none
    ∧ (buildMovieData (fun _ => none)
        ⟨1, ['t'], none, none, none, none, []⟩ []).original_title = none := by
  have h1 := buildMovieData_original_title (fun _ => none)
    ⟨1, ['t'], some ['t'], none, none, none, []⟩ []
  have h2 := buildMovieData_original_title (fun _ => none)
    ⟨1, ['t'], none, none, none, none, []⟩ []
  exact ⟨h1.2.2 rfl, h2.2.1 rfl⟩

/-- C9: genre translation maps each id through the genre map, replacing an
absent id by the `Unknown_<id>` placeholder, so the genre-name list always
has the same length as the entry's genre-id list. -/
theorem buildMovieData_genres (genres : Int → Option (List Char))
    (movie : ListingEntry) (downloaded_images : List String) :
    (buildMovieData genres movie downloaded_images).genres.length =
      movie.genre_ids.length
    ∧ (∀ (i : Nat) (gid : Int), movie.genre_ids[i]? = some gid → genres gid = none →
        (buildMovieData genres movie downloaded_images).genres[i]? =
          some (unknownGenre gid)) := by
  constructor
  · rw [buildMovieData]
    exact List.length_map _ _
  · intro i gid hget habs
    have hg : (genreNames genres movie.genre_ids)[i]? = some (unknownGenre gid) := by
      rw [genreNames, List.getElem?_map, hget]
      simp [habs]
    exact hg

/-- Witness for C9: an id absent from the genre map yields the placeholder. -/
theorem buildMovieData_genres_witness :
    (buildMovieData (fun _ => none)
        ⟨1, ['t'], none, none, none, none, [3]⟩ []).genres[0]? =
      some (unknownGenre 3) :=
  (buildMovieData_genres (fun _ => none)
    ⟨1, ['t'], none, none, none, none, [3]⟩ []).2 0 3 rfl rfl

end TMDBDatasetBuilder
